import Mathlib

/- Formal model of the Surge lookup-argument subsystem
   (src/jolt-core/src/lasso/surge.rs), shallowly embedded.

   Conventions of the embedding:
   - machine integers (u16 / u32 / usize) are modelled as Nat, with the
     explicit truncation `% 65536` exactly where the code writes `as u16`;
   - field values are a generic `Field F`; small-scalar values stored in
     compact polynomials are Nat and enter the field through `Nat.cast`,
     mirroring `field_mul` / `F::from_u16` / `F::from_u64`;
   - a Rust panic (a failed `assert!` / `debug_assert!` or an
     out-of-bounds `Vec` index) is modelled as `Option.none` for witness
     generation and as the explicit `VerifyOutcome.crash` for verification;
   - dense polynomials are their evaluation lists over the boolean
     hypercube, so `SurgeStuff (List Nat)` plays the role of
     `SurgePolynomials` and `SurgeStuff F` the role of `SurgeOpenings<F>`. -/

/-- Rust `usize::next_power_of_two`, realised by fuel-bounded doubling:
starting from 1, double until the accumulator reaches `n`.  With fuel `n`
this computes the least power of two that is `≥ n` (and `≥ 1`; in
particular `next_power_of_two 0 = 1`), as the lemmas below establish. -/
def next_power_of_two_go (n : Nat) : Nat → Nat → Nat
  | 0, p => p
  | fuel + 1, p => if n ≤ p then p else next_power_of_two_go n fuel (2 * p)

/-- Rust `usize::next_power_of_two` as used for `num_lookups` padding. -/
def next_power_of_two (n : Nat) : Nat := next_power_of_two_go n n 1

theorem next_power_of_two_go_ge (n : Nat) :
    ∀ fuel p, n ≤ p * 2 ^ fuel → n ≤ next_power_of_two_go n fuel p := by
  intro fuel
  induction fuel with
  | zero =>
    intro p h
    simpa [next_power_of_two_go] using h
  | succ k ih =>
    intro p h
    rw [next_power_of_two_go]
    split
    · assumption
    · apply ih
      have h2 : p * 2 ^ (k + 1) = 2 * p * 2 ^ k := by ring
      rw [h2] at h
      exact h

theorem next_power_of_two_go_pos (n : Nat) :
    ∀ fuel p, 0 < p → 0 < next_power_of_two_go n fuel p := by
  intro fuel
  induction fuel with
  | zero => intro p hp; simpa [next_power_of_two_go] using hp
  | succ k ih =>
    intro p hp
    rw [next_power_of_two_go]
    split
    · exact hp
    · exact ih (2 * p) (by omega)

theorem next_power_of_two_go_pow (n : Nat) :
    ∀ fuel k, ∃ j, next_power_of_two_go n fuel (2 ^ k) = 2 ^ j := by
  intro fuel
  induction fuel with
  | zero => intro k; exact ⟨k, rfl⟩
  | succ f ih =>
    intro k
    rw [next_power_of_two_go]
    split
    · exact ⟨k, rfl⟩
    · have h2 : 2 * 2 ^ k = 2 ^ (k + 1) := by ring
      rw [h2]
      exact ih (k + 1)

theorem next_power_of_two_go_min (n : Nat) :
    ∀ fuel k m, k ≤ m → n ≤ 2 ^ m →
      next_power_of_two_go n fuel (2 ^ k) ≤ 2 ^ m := by
  intro fuel
  induction fuel with
  | zero =>
    intro k m hkm _
    exact Nat.pow_le_pow_right (by omega) hkm
  | succ f ih =>
    intro k m hkm hnm
    rw [next_power_of_two_go]
    split
    · exact Nat.pow_le_pow_right (by omega) hkm
    · rename_i hlt
      have hkn : 2 ^ k < n := by omega
      have hklt : k < m := by
        by_contra hc
        have : m ≤ k := by omega
        have : (2 : Nat) ^ m ≤ 2 ^ k := Nat.pow_le_pow_right (by omega) this
        omega
      have h2 : 2 * 2 ^ k = 2 ^ (k + 1) := by ring
      rw [h2]
      exact ih (k + 1) m (by omega) hnm

/-- next_power_of_two dominates its argument. -/
theorem le_next_power_of_two (n : Nat) : n ≤ next_power_of_two n :=
  next_power_of_two_go_ge n n 1 (by simpa using (Nat.lt_two_pow n).le)

/-- next_power_of_two is at least 1 (an empty trace still pads to one row). -/
theorem next_power_of_two_pos (n : Nat) : 0 < next_power_of_two n :=
  next_power_of_two_go_pos n n 1 (by omega)

/-- next_power_of_two returns a power of two. -/
theorem next_power_of_two_eq_pow (n : Nat) : ∃ k, next_power_of_two n = 2 ^ k := by
  have h := next_power_of_two_go_pow n n 0
  simpa [next_power_of_two] using h

/-- next_power_of_two is the LEAST power of two above its argument. -/
theorem next_power_of_two_le_pow (n m : Nat) (h : n ≤ 2 ^ m) :
    next_power_of_two n ≤ 2 ^ m := by
  have hgo := next_power_of_two_go_min n n 0 m (by omega) h
  simpa [next_power_of_two] using hgo

/-- Rust `memory_address as u16`: truncation of a usize to 16 bits. -/
def u16cast (a : Nat) : Nat := a % 65536

/-- Maps an index in [0, NUM_MEMORIES) to [0, NUM_SUBTABLES): `i / C`. -/
def memory_to_subtable_index (C i : Nat) : Nat := i / C

/-- Maps an index in [0, NUM_MEMORIES) to [0, C): `i % C`. -/
def memory_to_dimension_index (C i : Nat) : Nat := i % C

/-- `num_memories = C * Instruction::default().subtables(C, M).len()`;
the subtable list is represented by its materialized vectors. -/
def num_memories (C : Nat) (subtables : List (List Nat)) : Nat :=
  C * subtables.length

/-- The generic container SurgeStuff<T>: C dim polynomials, C read_cts,
num_memories E_polys, C final_cts, plus the two verifier-computed
openings that stay `none` in the prover witness. -/
structure SurgeStuff (T : Type) where
  dim : List T
  read_cts : List T
  E_polys : List T
  final_cts : List T
  a_init_final : Option T
  v_init_final : Option (List T)
deriving DecidableEq

/-- SurgePolynomials: each slot holds the evaluation list of one dense
compact polynomial (u16 entries for dim, u32 for the counters and E). -/
abbrev SurgePolynomials : Type := SurgeStuff (List Nat)

/-- Validity of the inputs to generate_witness, i.e. the exact condition
under which the Rust function runs to completion instead of panicking:
every operation decodes to exactly C addresses (the assert_eq on
access_sequence.len()), every decoded address is < M (`debug_assert!`,
and in release the out-of-bounds index `final_cts[dim][addr]`), and if
padding rows exist they index `final_cts[dim][0]`, which requires
`0 < M` whenever `0 < C`. -/
def WitnessOk (C M : Nat) (ops : List (List Nat)) : Prop :=
  (∀ op ∈ ops, op.length = C ∧ ∀ a ∈ op, a < M) ∧
  (ops.length < next_power_of_two ops.length → 0 < C → 0 < M)

instance witnessOkDecidable (C M : Nat) (ops : List (List Nat)) :
    Decidable (WitnessOk C M ops) := by
  unfold WitnessOk
  infer_instance

/-- The address trace of one dimension, padding included: real rows
contribute their decoded address for this dimension, the rows added to
reach `next_power_of_two (ops.length)` deterministically access
address 0 in every dimension. -/
def dimStream (C : Nat) (ops : List (List Nat)) (d : Nat) : List Nat :=
  (ops ++ List.replicate (next_power_of_two ops.length - ops.length)
      (List.replicate C 0)).map (fun op : List Nat => op.getD d 0)

/-- The per-dimension counter loop of generate_witness: walk the address
trace keeping the per-address counter array (`final_cts`); at each row
read the counter at the accessed address (`read_cts` entry, the read
timestamp) and write back its increment (the write timestamp).  Returns
the read-timestamp list and the final counter array. -/
def processDim : List Nat → List Nat → List Nat × List Nat
  | cts, [] => ([], cts)
  | cts, a :: rest =>
    let ts := cts.getD a 0
    let r := processDim (cts.set a (ts + 1)) rest
    (ts :: r.1, r.2)

/-- Surge::generate_witness (surge.rs lines 613-694).  `none` models a
panic (bad address, wrong decomposition arity, or M = 0 padding).
Faithfulness notes: `dim` stores every address truncated `as u16`; the
counters are driven by the UNtruncated address; `E_polys[m][row]` looks
up the subtable of memory m at the u16 value recorded in `dim`
(`eval_index`); the materialized subtables are assumed to have length M
(the preprocessor contract), out-of-range lookups default to 0 here. -/
def generate_witness (C M : Nat) (subtables : List (List Nat))
    (ops : List (List Nat)) : Option SurgePolynomials :=
  if WitnessOk C M ops then
    some
      { dim := (List.range C).map (fun d => (dimStream C ops d).map u16cast)
        read_cts := (List.range C).map (fun d =>
          (processDim (List.replicate M 0) (dimStream C ops d)).1)
        E_polys := (List.range (num_memories C subtables)).map (fun m =>
          ((dimStream C ops (memory_to_dimension_index C m)).map u16cast).map
            (fun a => (subtables.getD (memory_to_subtable_index C m) []).getD a 0))
        final_cts := (List.range C).map (fun d =>
          (processDim (List.replicate M 0) (dimStream C ops d)).2)
        a_init_final := none
        v_init_final := none }
  else none

/-- getD of a mapped list, in bounds, is f of the source entry. -/
theorem getD_map_of_lt {α β : Type} (f : α → β) (l : List α) (i : Nat) (b : β)
    (d : α) (h : i < l.length) : (l.map f).getD i b = f (l.getD i d) := by
  rw [List.getD_eq_getElem (l.map f) b (by simpa using h),
    List.getD_eq_getElem l d h, List.getElem_map]

/-- getD over a map of List.range picks out f at the index. -/
theorem getD_range_map {β : Type} (f : Nat → β) (n i : Nat) (b : β)
    (h : i < n) : ((List.range n).map f).getD i b = f i := by
  rw [getD_map_of_lt f (List.range n) i b 0 (by simpa using h),
    List.getD_eq_getElem (List.range n) 0 (by simpa using h), List.getElem_range]

/-- getD after setting the same position. -/
theorem getD_set_self (l : List Nat) (i v : Nat) (h : i < l.length) :
    (l.set i v).getD i 0 = v := by
  rw [List.getD_eq_getElem (l.set i v) 0 (by simpa using h)]
  exact List.getElem_set_self (by simpa using h)

/-- getD after setting a different position. -/
theorem getD_set_other (l : List Nat) (i j v : Nat) (h : i ≠ j) :
    (l.set i v).getD j 0 = l.getD j 0 := by
  by_cases hj : j < l.length
  · rw [List.getD_eq_getElem (l.set i v) 0 (by simpa using hj),
      List.getD_eq_getElem l 0 hj]
    exact List.getElem_set_ne h (by simpa using hj)
  · rw [List.getD_eq_default (l.set i v) 0 (by simp; omega),
      List.getD_eq_default l 0 (by omega)]

/-- getD of an all-zero replicate list is 0 at every index. -/
theorem getD_replicate_zero (n d : Nat) :
    (List.replicate n (0 : Nat)).getD d 0 = 0 := by
  by_cases h : d < n
  · rw [List.getD_eq_getElem (List.replicate n 0) 0 (by simpa using h)]
    exact List.getElem_replicate 0 (by simpa using h)
  · exact List.getD_eq_default (List.replicate n 0) 0 (by simp; omega)

/-- The read-timestamp list has one entry per processed row. -/
theorem processDim_fst_length (addrs : List Nat) :
    ∀ cts, (processDim cts addrs).1.length = addrs.length := by
  induction addrs with
  | nil => intro cts; simp [processDim]
  | cons b rest ih => intro cts; simp [processDim, ih]

/-- The counter array keeps its length while rows are processed. -/
theorem processDim_snd_length (addrs : List Nat) :
    ∀ cts, (processDim cts addrs).2.length = cts.length := by
  induction addrs with
  | nil => intro cts; simp [processDim]
  | cons b rest ih => intro cts; simp [processDim, ih]

/-- Offline-memory-checking counting invariant: after processing a row
trace whose addresses are in bounds, the counter of address `a` has
grown by exactly the number of accesses to `a` in the trace. -/
theorem processDim_snd_getD (addrs : List Nat) :
    ∀ cts a, (∀ x ∈ addrs, x < cts.length) →
      (processDim cts addrs).2.getD a 0 = cts.getD a 0 + List.count a addrs := by
  induction addrs with
  | nil => intro cts a _; simp [processDim]
  | cons b rest ih =>
    intro cts a hb
    have hbl : b < cts.length := hb b (by simp)
    simp only [processDim]
    rw [ih (cts.set b (cts.getD b 0 + 1)) a
      (fun x hx => by rw [List.length_set]; exact hb x (by simp [hx]))]
    rw [List.count_cons]
    by_cases hab : b = a
    · subst hab
      rw [getD_set_self cts b _ hbl]
      simp
      omega
    · rw [getD_set_other cts b a _ hab]
      simp [hab]

/-- The read timestamp recorded at row i equals the counter value at the
accessed address after the first i rows were processed. -/
theorem processDim_fst_getD (addrs : List Nat) :
    ∀ cts i, i < addrs.length →
      (processDim cts addrs).1.getD i 0
        = (processDim cts (addrs.take i)).2.getD (addrs.getD i 0) 0 := by
  induction addrs with
  | nil => intro cts i h; simp at h
  | cons b rest ih =>
    intro cts i h
    cases i with
    | zero => simp [processDim]
    | succ k =>
      simp only [processDim, List.getD_cons_succ, List.take_succ_cons]
      rw [ih (cts.set b (cts.getD b 0 + 1)) k (by simpa using h)]

/-- Length of one dimension's padded address trace. -/
theorem dimStream_length (C : Nat) (ops : List (List Nat)) (d : Nat) :
    (dimStream C ops d).length = next_power_of_two ops.length := by
  have h := le_next_power_of_two ops.length
  simp [dimStream]
  omega

/-- Under the witness precondition, every address of every dimension's
padded trace (padding rows included) is in range. -/
theorem dimStream_mem_lt (C M : Nat) (ops : List (List Nat)) (d : Nat)
    (hok : WitnessOk C M ops) (hd : d < C) :
    ∀ x ∈ dimStream C ops d, x < M := by
  intro x hx
  rcases hok with ⟨h1, h2⟩
  simp only [dimStream, List.mem_map] at hx
  rcases hx with ⟨op, hop, rfl⟩
  rcases List.mem_append.mp hop with hreal | hpad
  · rcases h1 op hreal with ⟨hlen, hlt⟩
    have hdl : d < op.length := by omega
    apply hlt
    rw [List.getD_eq_getElem op 0 hdl]
    exact List.getElem_mem hdl
  · rcases List.mem_replicate.mp hpad with ⟨hne, rfl⟩
    have hM : 0 < M := h2 (by omega) (by omega)
    simpa [getD_replicate_zero] using hM

/-- Unpacking a successful generate_witness run: the precondition holds
and each per-dimension component is the corresponding scan output. -/
theorem generate_witness_components (C M : Nat) (subtables : List (List Nat))
    (ops : List (List Nat)) (w : SurgePolynomials)
    (hw : generate_witness C M subtables ops = some w) (d : Nat) (hd : d < C) :
    WitnessOk C M ops
    ∧ w.dim.getD d [] = (dimStream C ops d).map u16cast
    ∧ w.read_cts.getD d [] = (processDim (List.replicate M 0) (dimStream C ops d)).1
    ∧ w.final_cts.getD d [] = (processDim (List.replicate M 0) (dimStream C ops d)).2 := by
  by_cases h : WitnessOk C M ops
  · rw [generate_witness, if_pos h] at hw
    have hwrec := (Option.some.inj hw).symm
    subst hwrec
    exact ⟨h, getD_range_map _ C d [] hd, getD_range_map _ C d [] hd,
      getD_range_map _ C d [] hd⟩
  · rw [generate_witness, if_neg h] at hw
    cases hw

/-- Unpacking the E polynomial of one memory from a successful run. -/
theorem generate_witness_E (C M : Nat) (subtables : List (List Nat))
    (ops : List (List Nat)) (w : SurgePolynomials)
    (hw : generate_witness C M subtables ops = some w) (m : Nat)
    (hm : m < num_memories C subtables) :
    w.E_polys.getD m []
      = ((dimStream C ops (memory_to_dimension_index C m)).map u16cast).map
          (fun a => (subtables.getD (memory_to_subtable_index C m) []).getD a 0) := by
  by_cases h : WitnessOk C M ops
  · rw [generate_witness, if_pos h] at hw
    have hwrec := (Option.some.inj hw).symm
    subst hwrec
    exact getD_range_map _ (num_memories C subtables) m [] hm
  · rw [generate_witness, if_neg h] at hw
    cases hw

/-- C3: in the witness built by generate_witness, for every dimension d
and every row i (real or padded), read_cts[d][i] equals the number of
rows j < i accessing the same address in dimension d; the value written
back to the per-address counter at that row (the write timestamp, i.e.
the counter state after the first i+1 rows at the accessed address) is
read_cts[d][i] + 1; every padding row accesses address 0 in every
dimension (its dim entry is 0) and still reads/increments that counter
through the same scan; and final_cts[d][a] equals the total number of
accesses to address a in dimension d. -/
theorem generate_witness_timestamp_invariants (C M : Nat)
    (subtables : List (List Nat)) (ops : List (List Nat))
    (w : SurgePolynomials) (hw : generate_witness C M subtables ops = some w)
    (d i a : Nat) (hd : d < C) (hi : i < next_power_of_two ops.length) :
    ((w.read_cts.getD d []).getD i 0
        = List.count ((dimStream C ops d).getD i 0) ((dimStream C ops d).take i))
    ∧ ((processDim (List.replicate M 0) ((dimStream C ops d).take (i + 1))).2.getD
          ((dimStream C ops d).getD i 0) 0
        = (w.read_cts.getD d []).getD i 0 + 1)
    ∧ (ops.length ≤ i →
        (dimStream C ops d).getD i 0 = 0 ∧ (w.dim.getD d []).getD i 0 = 0)
    ∧ ((w.final_cts.getD d []).getD a 0 = List.count a (dimStream C ops d)) := by
  obtain ⟨hok, hdim, hrcts, hfcts⟩ :=
    generate_witness_components C M subtables ops w hw d hd
  have hSlen : (dimStream C ops d).length = next_power_of_two ops.length :=
    dimStream_length C ops d
  have hmem : ∀ x ∈ dimStream C ops d, x < M := dimStream_mem_lt C M ops d hok hd
  have hiS : i < (dimStream C ops d).length := by omega
  have hzlen : (List.replicate M (0 : Nat)).length = M := List.length_replicate M 0
  have hread : (w.read_cts.getD d []).getD i 0
      = List.count ((dimStream C ops d).getD i 0) ((dimStream C ops d).take i) := by
    rw [hrcts, processDim_fst_getD (dimStream C ops d) (List.replicate M 0) i hiS,
      processDim_snd_getD ((dimStream C ops d).take i) (List.replicate M 0)
        ((dimStream C ops d).getD i 0)
        (fun x hx => by rw [hzlen]; exact hmem x (List.take_subset i _ hx)),
      getD_replicate_zero]
    omega
  refine ⟨hread, ?_, ?_, ?_⟩
  · rw [processDim_snd_getD ((dimStream C ops d).take (i + 1)) (List.replicate M 0)
        ((dimStream C ops d).getD i 0)
        (fun x hx => by rw [hzlen]; exact hmem x (List.take_subset (i + 1) _ hx)),
      getD_replicate_zero]
    have htk : (dimStream C ops d).take (i + 1)
        = (dimStream C ops d).take i ++ [(dimStream C ops d).getD i 0] := by
      rw [List.take_succ, List.getElem?_eq_getElem hiS,
        List.getD_eq_getElem (dimStream C ops d) 0 hiS]
      rfl
    rw [htk, List.count_append, List.count_singleton, hread]
    simp
  · intro hpad
    have hNlen : ops.length
        + (next_power_of_two ops.length - ops.length) = next_power_of_two ops.length := by
      have := le_next_power_of_two ops.length
      omega
    have hiP : i < (ops ++ List.replicate (next_power_of_two ops.length - ops.length)
        (List.replicate C 0)).length := by
      rw [List.length_append, List.length_replicate]
      omega
    have hgetS : (dimStream C ops d).getD i 0 = 0 := by
      rw [dimStream, getD_map_of_lt _ _ i 0 []
        (by rw [List.length_append, List.length_replicate]; omega),
        List.getD_eq_getElem _ [] hiP, List.getElem_append_right (by omega),
        List.getElem_replicate]
      exact getD_replicate_zero C d
    refine ⟨hgetS, ?_⟩
    rw [hdim, getD_map_of_lt u16cast _ i 0 0 hiS, hgetS]
    rfl
  · rw [hfcts, processDim_snd_getD (dimStream C ops d) (List.replicate M 0) a
      (fun x hx => by rw [hzlen]; exact hmem x hx), getD_replicate_zero]
    omega

/-- C1: if any operation decodes to an address a with M ≤ a, witness
generation fails at witness-build time (the Rust code panics inside the
operation loop, before any polynomial is built; `prove` calls
generate_witness before committing to anything, so no proof is
produced either). -/
theorem generate_witness_bad_address_fails (C M : Nat)
    (subtables : List (List Nat)) (ops : List (List Nat)) (op : List Nat)
    (a : Nat) (hop : op ∈ ops) (ha : a ∈ op) (hM : M ≤ a) :
    generate_witness C M subtables ops = none := by
  rw [generate_witness, if_neg]
  intro hok
  rcases hok with ⟨h1, _⟩
  have := (h1 op hop).2 a ha
  omega

/-- C1 witness: a one-dimension instance with decoded address 5 ≥ M = 4. -/
theorem generate_witness_bad_address_fails_witness :
    [5] ∈ [[5]] ∧ (5 : Nat) ∈ [5] ∧ (4 : Nat) ≤ 5
    ∧ generate_witness 1 4 [[0, 1, 2, 3]] [[5]] = none :=
  ⟨by decide, by decide, by decide,
    generate_witness_bad_address_fails 1 4 [[0, 1, 2, 3]] [[5]] [5] 5
      (by decide) (by decide) (by decide)⟩

/-- C9: a successful generate_witness run yields C dim polynomials, C
read_cts, num_memories E_polys and C final_cts; dim/read_cts/E_polys
all have length N = next_power_of_two (ops.length) (which is at least 1,
so an empty operation list still yields one padded row), final_cts have
length M, and the two verifier-only openings are absent. -/
theorem generate_witness_shape (C M : Nat) (subtables : List (List Nat))
    (ops : List (List Nat)) (w : SurgePolynomials)
    (hw : generate_witness C M subtables ops = some w) :
    w.dim.length = C ∧ w.read_cts.length = C
    ∧ w.E_polys.length = num_memories C subtables
    ∧ w.final_cts.length = C
    ∧ (∀ l ∈ w.dim, l.length = next_power_of_two ops.length)
    ∧ (∀ l ∈ w.read_cts, l.length = next_power_of_two ops.length)
    ∧ (∀ l ∈ w.E_polys, l.length = next_power_of_two ops.length)
    ∧ (∀ l ∈ w.final_cts, l.length = M)
    ∧ 1 ≤ next_power_of_two ops.length
    ∧ w.a_init_final = none ∧ w.v_init_final = none := by
  by_cases h : WitnessOk C M ops
  · rw [generate_witness, if_pos h] at hw
    have hwrec := (Option.some.inj hw).symm
    subst hwrec
    refine ⟨by simp, by simp, by simp, by simp, ?_, ?_, ?_, ?_,
      next_power_of_two_pos ops.length, rfl, rfl⟩
    · intro l hl
      rcases List.mem_map.mp hl with ⟨x, _, rfl⟩
      simp [dimStream_length]
    · intro l hl
      rcases List.mem_map.mp hl with ⟨x, _, rfl⟩
      rw [processDim_fst_length, dimStream_length]
    · intro l hl
      rcases List.mem_map.mp hl with ⟨x, _, rfl⟩
      simp [dimStream_length]
    · intro l hl
      rcases List.mem_map.mp hl with ⟨x, _, rfl⟩
      rw [processDim_snd_length, List.length_replicate]
  · rw [generate_witness, if_neg h] at hw
    cases hw

/-- C9 witness: the empty operation list pads to a single row. -/
theorem generate_witness_shape_witness :
    generate_witness 1 2 [[5, 6]] []
      = some ⟨[[0]], [[0]], [[5]], [[1, 0]], none, none⟩
    ∧ ((⟨[[0]], [[0]], [[5]], [[1, 0]], none, none⟩ : SurgePolynomials).dim.length = 1
    ∧ (⟨[[0]], [[0]], [[5]], [[1, 0]], none, none⟩ : SurgePolynomials).read_cts.length = 1
    ∧ (⟨[[0]], [[0]], [[5]], [[1, 0]], none, none⟩ : SurgePolynomials).E_polys.length
        = num_memories 1 [[5, 6]]
    ∧ (⟨[[0]], [[0]], [[5]], [[1, 0]], none, none⟩ : SurgePolynomials).final_cts.length = 1
    ∧ (∀ l ∈ (⟨[[0]], [[0]], [[5]], [[1, 0]], none, none⟩ : SurgePolynomials).dim,
        l.length = next_power_of_two (List.length ([] : List (List Nat))))
    ∧ (∀ l ∈ (⟨[[0]], [[0]], [[5]], [[1, 0]], none, none⟩ : SurgePolynomials).read_cts,
        l.length = next_power_of_two (List.length ([] : List (List Nat))))
    ∧ (∀ l ∈ (⟨[[0]], [[0]], [[5]], [[1, 0]], none, none⟩ : SurgePolynomials).E_polys,
        l.length = next_power_of_two (List.length ([] : List (List Nat))))
    ∧ (∀ l ∈ (⟨[[0]], [[0]], [[5]], [[1, 0]], none, none⟩ : SurgePolynomials).final_cts,
        l.length = 2)
    ∧ 1 ≤ next_power_of_two (List.length ([] : List (List Nat)))
    ∧ (⟨[[0]], [[0]], [[5]], [[1, 0]], none, none⟩ : SurgePolynomials).a_init_final = none
    ∧ (⟨[[0]], [[0]], [[5]], [[1, 0]], none, none⟩ : SurgePolynomials).v_init_final = none) :=
  ⟨by decide,
    generate_witness_shape 1 2 [[5, 6]] []
      ⟨[[0]], [[0]], [[5]], [[1, 0]], none, none⟩ (by decide)⟩

/-- C7: each E polynomial entry of the generated witness is the subtable
value of the memory's subtable at the address recorded for that row in
the memory's dimension polynomial. -/
theorem E_poly_eq_subtable_at_dim (C M : Nat) (subtables : List (List Nat))
    (ops : List (List Nat)) (w : SurgePolynomials)
    (hw : generate_witness C M subtables ops = some w)
    (m i : Nat) (hm : m < num_memories C subtables)
    (hi : i < next_power_of_two ops.length) :
    (w.E_polys.getD m []).getD i 0
      = (subtables.getD (memory_to_subtable_index C m) []).getD
          ((w.dim.getD (memory_to_dimension_index C m) []).getD i 0) 0 := by
  have hC : 0 < C := by
    by_contra hc
    have hc0 : C = 0 := by omega
    rw [hc0] at hm
    simp [num_memories] at hm
  have hd : memory_to_dimension_index C m < C := Nat.mod_lt m hC
  obtain ⟨hok, hdim, _, _⟩ :=
    generate_witness_components C M subtables ops w hw _ hd
  have hE := generate_witness_E C M subtables ops w hw m hm
  rw [hE, hdim]
  have hiS : i < ((dimStream C ops (memory_to_dimension_index C m)).map u16cast).length := by
    rw [List.length_map, dimStream_length]
    omega
  rw [getD_map_of_lt _ _ i 0 0 hiS]

/-- C7 witness: one real lookup at address 1 in a 1-dimension instance. -/
theorem E_poly_eq_subtable_at_dim_witness :
    generate_witness 1 2 [[7, 9]] [[1]]
      = some ⟨[[1]], [[0]], [[9]], [[0, 1]], none, none⟩
    ∧ (0 : Nat) < num_memories 1 [[7, 9]]
    ∧ (0 : Nat) < next_power_of_two (List.length [[1]])
    ∧ (((⟨[[1]], [[0]], [[9]], [[0, 1]], none, none⟩ : SurgePolynomials).E_polys.getD 0 []).getD 0 0
        = (([[7, 9]] : List (List Nat)).getD (memory_to_subtable_index 1 0) []).getD
            (((⟨[[1]], [[0]], [[9]], [[0, 1]], none, none⟩ : SurgePolynomials).dim.getD
                (memory_to_dimension_index 1 0) []).getD 0 0) 0) :=
  ⟨by decide, by decide, by decide,
    E_poly_eq_subtable_at_dim 1 2 [[7, 9]] [[1]]
      ⟨[[1]], [[0]], [[9]], [[0, 1]], none, none⟩ (by decide) 0 0
      (by decide) (by decide)⟩

/-- C10: for every real operation row, the stored dim entry is the
decoded address truncated to 16 bits (`as u16`): it is < 2^16, equals
the address mod 2^16 (so an address in [2^16, M), possible only when
M > 2^16, is silently truncated with no error raised), and equals the
address exactly whenever the address is < 2^16. -/
theorem dim_entries_are_u16 (C M : Nat) (subtables : List (List Nat))
    (ops : List (List Nat)) (w : SurgePolynomials)
    (hw : generate_witness C M subtables ops = some w)
    (d i : Nat) (hd : d < C) (hi : i < ops.length) :
    (w.dim.getD d []).getD i 0 < 65536
    ∧ (w.dim.getD d []).getD i 0 = (ops.getD i []).getD d 0 % 65536
    ∧ ((ops.getD i []).getD d 0 < 65536 →
        (w.dim.getD d []).getD i 0 = (ops.getD i []).getD d 0) := by
  obtain ⟨hok, hdim, _, _⟩ :=
    generate_witness_components C M subtables ops w hw d hd
  have hle := le_next_power_of_two ops.length
  have hiS : i < (dimStream C ops d).length := by
    rw [dimStream_length]
    omega
  have hiP : i < (ops ++ List.replicate (next_power_of_two ops.length - ops.length)
      (List.replicate C 0)).length := by
    rw [List.length_append, List.length_replicate]
    omega
  have hdS : (dimStream C ops d).getD i 0 = (ops.getD i []).getD d 0 := by
    rw [dimStream, getD_map_of_lt _ _ i 0 []
        (by rw [List.length_append, List.length_replicate]; omega),
      List.getD_eq_getElem _ [] hiP, List.getElem_append_left hi,
      List.getD_eq_getElem ops [] hi]
  rw [hdim, getD_map_of_lt u16cast _ i 0 0 hiS, hdS]
  refine ⟨Nat.mod_lt _ (by omega), rfl, fun hlt => Nat.mod_eq_of_lt hlt⟩

/-- C10 witness: address 1 < 2^16 is stored exactly. -/
theorem dim_entries_are_u16_witness :
    generate_witness 1 2 [[7, 9]] [[1], [0]]
      = some ⟨[[1, 0]], [[0, 0]], [[9, 7]], [[1, 1]], none, none⟩
    ∧ (0 : Nat) < List.length [[1], [0]]
    ∧ ((((⟨[[1, 0]], [[0, 0]], [[9, 7]], [[1, 1]], none, none⟩ : SurgePolynomials).dim.getD
          0 []).getD 0 0 < 65536)
      ∧ ((⟨[[1, 0]], [[0, 0]], [[9, 7]], [[1, 1]], none, none⟩ : SurgePolynomials).dim.getD
          0 []).getD 0 0 = (([[1], [0]] : List (List Nat)).getD 0 []).getD 0 0 % 65536
      ∧ ((([[1], [0]] : List (List Nat)).getD 0 []).getD 0 0 < 65536 →
          ((⟨[[1, 0]], [[0, 0]], [[9, 7]], [[1, 1]], none, none⟩ : SurgePolynomials).dim.getD
              0 []).getD 0 0 = (([[1], [0]] : List (List Nat)).getD 0 []).getD 0 0)) :=
  ⟨by decide, by decide,
    dim_entries_are_u16 1 2 [[7, 9]] [[1], [0]]
      ⟨[[1, 0]], [[0, 0]], [[9, 7]], [[1, 1]], none, none⟩ (by decide) 0 0
      (by decide) (by decide)⟩

/-- C3 witness: three real lookups plus one padding row (N = 4), checked
at the padding row i = 3 and address a = 0. -/
theorem generate_witness_timestamp_invariants_witness :
    generate_witness 1 2 [[10, 20]] [[1], [1], [0]]
      = some ⟨[[1, 1, 0, 0]], [[0, 1, 0, 1]], [[20, 20, 10, 10]], [[2, 2]], none, none⟩
    ∧ (0 : Nat) < 1 ∧ (3 : Nat) < next_power_of_two (List.length [[1], [1], [0]])
    ∧ ((((⟨[[1, 1, 0, 0]], [[0, 1, 0, 1]], [[20, 20, 10, 10]], [[2, 2]], none, none⟩ :
            SurgePolynomials).read_cts.getD 0 []).getD 3 0
        = List.count ((dimStream 1 [[1], [1], [0]] 0).getD 3 0)
            ((dimStream 1 [[1], [1], [0]] 0).take 3))
      ∧ ((processDim (List.replicate 2 0) ((dimStream 1 [[1], [1], [0]] 0).take (3 + 1))).2.getD
            ((dimStream 1 [[1], [1], [0]] 0).getD 3 0) 0
          = ((⟨[[1, 1, 0, 0]], [[0, 1, 0, 1]], [[20, 20, 10, 10]], [[2, 2]], none, none⟩ :
              SurgePolynomials).read_cts.getD 0 []).getD 3 0 + 1)
      ∧ (List.length [[1], [1], [0]] ≤ 3 →
          (dimStream 1 [[1], [1], [0]] 0).getD 3 0 = 0
          ∧ ((⟨[[1, 1, 0, 0]], [[0, 1, 0, 1]], [[20, 20, 10, 10]], [[2, 2]], none, none⟩ :
              SurgePolynomials).dim.getD 0 []).getD 3 0 = 0)
      ∧ (((⟨[[1, 1, 0, 0]], [[0, 1, 0, 1]], [[20, 20, 10, 10]], [[2, 2]], none, none⟩ :
            SurgePolynomials).final_cts.getD 0 []).getD 0 0
          = List.count 0 (dimStream 1 [[1], [1], [0]] 0))) :=
  ⟨by decide, by decide, by decide,
    generate_witness_timestamp_invariants 1 2 [[10, 20]] [[1], [1], [0]]
      ⟨[[1, 1, 0, 0]], [[0, 1, 0, 1]], [[20, 20, 10, 10]], [[2, 2]], none, none⟩
      (by decide) 0 3 0 (by decide) (by decide)⟩

/-- MemoryCheckingProver::fingerprint for Surge (surge.rs lines 142-145):
`t * gamma.square() + v * gamma + a - tau`, with `square` spelled out as
gamma * gamma. -/
def fingerprint {F : Type} [Field F] (a v t gamma tau : F) : F :=
  t * (gamma * gamma) + v * gamma + a - tau

/-- The read fingerprints of one memory inside compute_leaves (lines
178-185): for each row, `t.field_mul(gamma_squared) +
v.field_mul(gamma) + F::from_u16(a) - tau` over the stored u32 read
count t, u32 value v and u16 address a. -/
def read_fingerprints {F : Type} [Field F] (C : Nat) (polys : SurgePolynomials)
    (gamma tau : F) (m : Nat) : List F :=
  (List.range ((polys.dim.getD 0 []).length)).map (fun i =>
    ((polys.read_cts.getD (memory_to_dimension_index C m) []).getD i 0 : F)
        * (gamma * gamma)
      + ((polys.E_polys.getD m []).getD i 0 : F) * gamma
      + ((polys.dim.getD (memory_to_dimension_index C m) []).getD i 0 : F) - tau)

/-- The write fingerprints of one memory (lines 186-193): each read
fingerprint plus `t_adjustment = 1u64.field_mul(gamma_squared)`. -/
def write_fingerprints {F : Type} [Field F] (C : Nat) (polys : SurgePolynomials)
    (gamma tau : F) (m : Nat) : List F :=
  (read_fingerprints C polys gamma tau m).map
    (fun r => r + (1 : F) * (gamma * gamma))

/-- The init fingerprints of one memory (lines 206-213): M rows, row i
carrying `subtable[i].field_mul(gamma) + F::from_u64(i) - tau` (the
timestamp term 0 * gamma^2 is elided exactly as in the code). -/
def init_fingerprints {F : Type} [Field F] (C M : Nat)
    (subtables : List (List Nat)) (gamma tau : F) (m : Nat) : List F :=
  (List.range M).map (fun i =>
    ((subtables.getD (memory_to_subtable_index C m) []).getD i 0 : F) * gamma
      + (i : F) - tau)

/-- The final fingerprints of one memory (lines 214-222): the init
fingerprints, enumerated, each shifted by final_cts[i] * gamma^2. -/
def final_fingerprints {F : Type} [Field F] (C M : Nat)
    (subtables : List (List Nat)) (polys : SurgePolynomials)
    (gamma tau : F) (m : Nat) : List F :=
  (init_fingerprints C M subtables gamma tau m).enum.map (fun p =>
    p.2 + ((polys.final_cts.getD (memory_to_dimension_index C m) []).getD p.1 0 : F)
      * (gamma * gamma))

/-- The read/write half of compute_leaves, as its 2*num_memories leaf
groups (the code's read_write_leaves before the final concat): group 2m
holds memory m's read fingerprints, group 2m+1 its write fingerprints. -/
def read_write_leaves {F : Type} [Field F] (C : Nat)
    (subtables : List (List Nat)) (polys : SurgePolynomials)
    (gamma tau : F) : List (List F) :=
  (List.range (num_memories C subtables)).flatMap (fun m =>
    [read_fingerprints C polys gamma tau m, write_fingerprints C polys gamma tau m])

/-- The init/final half of compute_leaves (the code's init_final_leaves
before the final concat): group 2m holds memory m's init fingerprints,
group 2m+1 its final fingerprints. -/
def init_final_leaves {F : Type} [Field F] (C M : Nat)
    (subtables : List (List Nat)) (polys : SurgePolynomials)
    (gamma tau : F) : List (List F) :=
  (List.range (num_memories C subtables)).flatMap (fun m =>
    [init_fingerprints C M subtables gamma tau m,
     final_fingerprints C M subtables polys gamma tau m])

/-- Surge::compute_leaves (lines 149-233): both leaf batches, each
concatenated and paired with its group count 2 * num_memories. -/
def compute_leaves {F : Type} [Field F] (C M : Nat)
    (subtables : List (List Nat)) (polys : SurgePolynomials)
    (gamma tau : F) : (List F × Nat) × (List F × Nat) :=
  (((read_write_leaves C subtables polys gamma tau).flatten,
      2 * num_memories C subtables),
   ((init_final_leaves C M subtables polys gamma tau).flatten,
      2 * num_memories C subtables))

/-- Surge::read_tuples (lines 274-289): the (a, v, t) triple of each
memory, reconstructed from the opened scalars. -/
def read_tuples {F : Type} [Field F] (C : Nat) (subtables : List (List Nat))
    (openings : SurgeStuff F) : List (F × F × F) :=
  (List.range (num_memories C subtables)).map (fun m =>
    (openings.dim.getD (memory_to_dimension_index C m) 0,
     openings.E_polys.getD m 0,
     openings.read_cts.getD (memory_to_dimension_index C m) 0))

/-- Surge::write_tuples (lines 291-306): same triples with the read
timestamp incremented by one. -/
def write_tuples {F : Type} [Field F] (C : Nat) (subtables : List (List Nat))
    (openings : SurgeStuff F) : List (F × F × F) :=
  (List.range (num_memories C subtables)).map (fun m =>
    (openings.dim.getD (memory_to_dimension_index C m) 0,
     openings.E_polys.getD m 0,
     openings.read_cts.getD (memory_to_dimension_index C m) 0 + 1))

/-- getD of a flatMap of two-element blocks over List.range: position
2m is the first block element of iteration m, position 2m+1 the second. -/
theorem getD_flatMap_pair_list {α β : Type} (f g : β → List α) (d : List α) :
    ∀ (l : List β) (m : Nat) (hm : m < l.length),
      ((l.flatMap (fun j => [f j, g j])).getD (2 * m) d = f (l.get ⟨m, hm⟩)
      ∧ (l.flatMap (fun j => [f j, g j])).getD (2 * m + 1) d = g (l.get ⟨m, hm⟩)) := by
  intro l
  induction l with
  | nil => intro m hm; simp at hm
  | cons b rest ih =>
    intro m hm
    cases m with
    | zero => simp [List.flatMap_cons]
    | succ k =>
      have hmr : k < rest.length := by simpa using hm
      have e1 : 2 * (k + 1) = 2 * k + 1 + 1 := by ring
      have hcons : ((b :: rest).flatMap (fun j => [f j, g j]))
          = f b :: g b :: rest.flatMap (fun j => [f j, g j]) := by
        simp [List.flatMap_cons]
      rcases ih k hmr with ⟨ih1, ih2⟩
      constructor
      · rw [e1, hcons, List.getD_cons_succ, List.getD_cons_succ]
        simpa using ih1
      · rw [show 2 * (k + 1) + 1 = 2 * k + 1 + 1 + 1 by ring, hcons,
          List.getD_cons_succ, List.getD_cons_succ]
        simpa using ih2

/-- Specialization of the block lemma to List.range. -/
theorem getD_flatMap_pair_range {α : Type} (n : Nat) (f g : Nat → List α)
    (m : Nat) (d : List α) (hm : m < n) :
    ((List.range n).flatMap (fun j => [f j, g j])).getD (2 * m) d = f m
    ∧ ((List.range n).flatMap (fun j => [f j, g j])).getD (2 * m + 1) d = g m := by
  have h := getD_flatMap_pair_list f g d (List.range n) m (by simpa using hm)
  have hr : (List.range n).get ⟨m, by simpa using hm⟩ = m := by
    simp
  rw [hr] at h
  exact h

instance fact_prime_seven : Fact (Nat.Prime 7) := ⟨by norm_num⟩

/-- C4: the fingerprint of a memory tuple is t·γ² + v·γ + a − τ. -/
theorem fingerprint_formula {F : Type} [Field F] (a v t gamma tau : F) :
    fingerprint a v t gamma tau = t * gamma ^ 2 + v * gamma + a - tau := by
  simp only [fingerprint]
  ring

theorem read_fingerprints_length {F : Type} [Field F] (C : Nat)
    (polys : SurgePolynomials) (gamma tau : F) (m : Nat) :
    (read_fingerprints C polys gamma tau m).length
      = (polys.dim.getD 0 []).length := by
  simp [read_fingerprints]

/-- C5: for every memory and every row, the write leaf emitted by
compute_leaves is the corresponding read leaf plus exactly γ²; and
write_tuples returns exactly the read_tuples with the same address and
value and the timestamp incremented by one. -/
theorem write_leaf_eq_read_leaf_plus_gamma_sq {F : Type} [Field F] (C : Nat)
    (subtables : List (List Nat)) (polys : SurgePolynomials)
    (o : SurgeStuff F) (gamma tau : F) (m i : Nat)
    (hm : m < num_memories C subtables)
    (hi : i < (polys.dim.getD 0 []).length) :
    ((read_write_leaves C subtables polys gamma tau).getD (2 * m + 1) []).getD i 0
      = ((read_write_leaves C subtables polys gamma tau).getD (2 * m) []).getD i 0
        + gamma ^ 2
    ∧ write_tuples C subtables o
      = (read_tuples C subtables o).map (fun x => (x.1, x.2.1, x.2.2 + 1)) := by
  constructor
  · obtain ⟨h0, h1⟩ := getD_flatMap_pair_range (num_memories C subtables)
      (read_fingerprints C polys gamma tau) (write_fingerprints C polys gamma tau)
      m [] hm
    simp only [read_write_leaves]
    rw [h0, h1, write_fingerprints,
      getD_map_of_lt (fun r => r + (1 : F) * (gamma * gamma)) _ i 0 0
        (by rw [read_fingerprints_length]; omega)]
    ring
  · simp [write_tuples, read_tuples, List.map_map, Function.comp]

/-- C5 witness: a tiny instance over the field with seven elements. -/
theorem write_leaf_eq_read_leaf_plus_gamma_sq_witness :
    (0 : Nat) < num_memories 1 [[2, 3]]
    ∧ (0 : Nat) < (((⟨[[1, 0]], [[0, 0]], [[3, 2]], [[1, 1]], none, none⟩ :
        SurgePolynomials).dim.getD 0 []).length)
    ∧ (((read_write_leaves 1 [[2, 3]]
          (⟨[[1, 0]], [[0, 0]], [[3, 2]], [[1, 1]], none, none⟩ : SurgePolynomials)
          (3 : ZMod 7) 5).getD (2 * 0 + 1) []).getD 0 0
        = ((read_write_leaves 1 [[2, 3]]
            (⟨[[1, 0]], [[0, 0]], [[3, 2]], [[1, 1]], none, none⟩ : SurgePolynomials)
            (3 : ZMod 7) 5).getD (2 * 0) []).getD 0 0 + (3 : ZMod 7) ^ 2
      ∧ write_tuples 1 [[2, 3]]
          (⟨[4], [5], [6], [1], none, none⟩ : SurgeStuff (ZMod 7))
        = (read_tuples 1 [[2, 3]]
            (⟨[4], [5], [6], [1], none, none⟩ : SurgeStuff (ZMod 7))).map
              (fun x => (x.1, x.2.1, x.2.2 + 1))) :=
  ⟨by decide, by decide,
    write_leaf_eq_read_leaf_plus_gamma_sq 1 [[2, 3]]
      ⟨[[1, 0]], [[0, 0]], [[3, 2]], [[1, 1]], none, none⟩
      ⟨[4], [5], [6], [1], none, none⟩ (3 : ZMod 7) 5 0 0
      (by decide) (by decide)⟩

/-- C6: for every memory there are exactly M init rows; init row i
carries fingerprint(a = i, v = subtable value, t = 0), which is
v·γ + i − τ, and the final row i is the init row plus
final_cts[dimension m][i]·γ². -/
theorem init_final_leaves_formula {F : Type} [Field F] (C M : Nat)
    (subtables : List (List Nat)) (polys : SurgePolynomials)
    (gamma tau : F) (m i : Nat) (hm : m < num_memories C subtables)
    (hi : i < M) :
    ((init_final_leaves C M subtables polys gamma tau).getD (2 * m) []).length = M
    ∧ ((init_final_leaves C M subtables polys gamma tau).getD (2 * m) []).getD i 0
        = fingerprint (i : F)
            ((subtables.getD (memory_to_subtable_index C m) []).getD i 0 : F)
            0 gamma tau
    ∧ ((init_final_leaves C M subtables polys gamma tau).getD (2 * m) []).getD i 0
        = ((subtables.getD (memory_to_subtable_index C m) []).getD i 0 : F) * gamma
          + (i : F) - tau
    ∧ ((init_final_leaves C M subtables polys gamma tau).getD (2 * m + 1) []).getD i 0
        = ((init_final_leaves C M subtables polys gamma tau).getD (2 * m) []).getD i 0
          + ((polys.final_cts.getD (memory_to_dimension_index C m) []).getD i 0 : F)
            * gamma ^ 2 := by
  obtain ⟨h0, h1⟩ := getD_flatMap_pair_range (num_memories C subtables)
    (init_fingerprints C M subtables gamma tau)
    (final_fingerprints C M subtables polys gamma tau) m [] hm
  have hlen : (init_fingerprints C M subtables gamma tau m).length = M := by
    simp [init_fingerprints]
  have hval : (init_fingerprints C M subtables gamma tau m).getD i 0
      = ((subtables.getD (memory_to_subtable_index C m) []).getD i 0 : F) * gamma
        + (i : F) - tau :=
    getD_range_map _ M i 0 hi
  refine ⟨?_, ?_, ?_, ?_⟩
  · simp only [init_final_leaves]
    rw [h0, hlen]
  · simp only [init_final_leaves]
    rw [h0, hval]
    simp only [fingerprint]
    ring
  · simp only [init_final_leaves]
    rw [h0, hval]
  · simp only [init_final_leaves]
    rw [h0, h1, final_fingerprints,
      getD_map_of_lt _ _ i 0 ((0 : Nat), (0 : F)) (by simp [hlen]; omega)]
    have he : (init_fingerprints C M subtables gamma tau m).enum.getD i (0, 0)
        = (i, (init_fingerprints C M subtables gamma tau m).getD i 0) := by
      rw [List.getD_eq_getElem _ _ (by simp [hlen]; omega),
        List.getElem_enum, List.getD_eq_getElem _ _ (by rw [hlen]; omega)]
    rw [he]
    simp only []
    rw [hval]
    ring

/-- C6 witness: memory 0, row 1 of a 2-row subtable over ZMod 7. -/
theorem init_final_leaves_formula_witness :
    (0 : Nat) < num_memories 1 [[2, 3]] ∧ (1 : Nat) < 2
    ∧ (((init_final_leaves 1 2 [[2, 3]]
          (⟨[[1, 0]], [[0, 0]], [[3, 2]], [[1, 1]], none, none⟩ : SurgePolynomials)
          (3 : ZMod 7) 5).getD (2 * 0) []).length = 2
      ∧ ((init_final_leaves 1 2 [[2, 3]]
            (⟨[[1, 0]], [[0, 0]], [[3, 2]], [[1, 1]], none, none⟩ : SurgePolynomials)
            (3 : ZMod 7) 5).getD (2 * 0) []).getD 1 0
          = fingerprint ((1 : Nat) : ZMod 7)
              (((([[2, 3]] : List (List Nat)).getD (memory_to_subtable_index 1 0) []).getD
                  1 0 : Nat) : ZMod 7) 0 (3 : ZMod 7) 5
      ∧ ((init_final_leaves 1 2 [[2, 3]]
            (⟨[[1, 0]], [[0, 0]], [[3, 2]], [[1, 1]], none, none⟩ : SurgePolynomials)
            (3 : ZMod 7) 5).getD (2 * 0) []).getD 1 0
          = (((([[2, 3]] : List (List Nat)).getD (memory_to_subtable_index 1 0) []).getD
              1 0 : Nat) : ZMod 7) * (3 : ZMod 7) + ((1 : Nat) : ZMod 7) - 5
      ∧ ((init_final_leaves 1 2 [[2, 3]]
            (⟨[[1, 0]], [[0, 0]], [[3, 2]], [[1, 1]], none, none⟩ : SurgePolynomials)
            (3 : ZMod 7) 5).getD (2 * 0 + 1) []).getD 1 0
          = ((init_final_leaves 1 2 [[2, 3]]
              (⟨[[1, 0]], [[0, 0]], [[3, 2]], [[1, 1]], none, none⟩ : SurgePolynomials)
              (3 : ZMod 7) 5).getD (2 * 0) []).getD 1 0
            + ((((⟨[[1, 0]], [[0, 0]], [[3, 2]], [[1, 1]], none, none⟩ :
                SurgePolynomials).final_cts.getD (memory_to_dimension_index 1 0) []).getD
                  1 0 : Nat) : ZMod 7) * (3 : ZMod 7) ^ 2) :=
  ⟨by decide, by decide,
    init_final_leaves_formula 1 2 [[2, 3]]
      ⟨[[1, 0]], [[0, 0]], [[3, 2]], [[1, 1]], none, none⟩ (3 : ZMod 7) 5 0 1
      (by decide) (by decide)⟩

/-- The (dimension, subtable) pair of one memory index, assembled from
the code's two index maps memory_to_dimension_index (i % C) and
memory_to_subtable_index (i / C). -/
def memory_index_pair (C S : Nat) (i : Fin (C * S)) : Fin C × Fin S :=
  (⟨memory_to_dimension_index C i.val, by
      have hCS : 0 < C * S := Nat.lt_of_le_of_lt (Nat.zero_le _) i.isLt
      have hC : 0 < C := by
        rcases Nat.eq_zero_or_pos C with h0 | h0
        · rw [h0, Nat.zero_mul] at hCS
          exact absurd hCS (Nat.lt_irrefl 0)
        · exact h0
      exact Nat.mod_lt i.val hC⟩,
   ⟨memory_to_subtable_index C i.val, Nat.div_lt_of_lt_mul i.isLt⟩)

/-- C8: with num_memories = C * S, the map
i ↦ (memory_to_dimension_index i, memory_to_subtable_index i)
= (i % C, i / C) is a bijection from [0, num_memories) onto
[0, C) × [0, S). -/
theorem memory_index_pair_bijective (C S : Nat) :
    Function.Bijective (memory_index_pair C S) := by
  constructor
  · intro i j hij
    have h1 : memory_to_dimension_index C i.val
        = memory_to_dimension_index C j.val := by
      have hc := congrArg (fun p => (p.1 : Nat)) hij
      simpa [memory_index_pair] using hc
    have h2 : memory_to_subtable_index C i.val
        = memory_to_subtable_index C j.val := by
      have hc := congrArg (fun p => (p.2 : Nat)) hij
      simpa [memory_index_pair] using hc
    unfold memory_to_dimension_index at h1
    unfold memory_to_subtable_index at h2
    apply Fin.ext
    calc (i.val : Nat) = C * (i.val / C) + i.val % C := (Nat.div_add_mod i.val C).symm
      _ = C * (j.val / C) + j.val % C := by rw [h1, h2]
      _ = j.val := Nat.div_add_mod j.val C
  · intro p
    rcases p with ⟨d, s⟩
    have hC : 0 < C := by
      have := d.isLt
      omega
    refine ⟨⟨s.val * C + d.val, ?_⟩, ?_⟩
    · calc s.val * C + d.val < s.val * C + C := by
            have := d.isLt
            omega
        _ = (s.val + 1) * C := by ring
        _ ≤ S * C := Nat.mul_le_mul_right C s.isLt
        _ = C * S := Nat.mul_comm S C
    · have hmod : (s.val * C + d.val) % C = d.val := by
        rw [Nat.add_comm, Nat.add_mul_mod_self_right]
        exact Nat.mod_eq_of_lt d.isLt
      have hdiv : (s.val * C + d.val) / C = s.val := by
        rw [Nat.add_comm, Nat.add_mul_div_right d.val s.val hC,
          Nat.div_eq_of_lt d.isLt]
        omega
      refine Prod.ext ?_ ?_
      · exact Fin.ext
          (by simpa [memory_index_pair, memory_to_dimension_index] using hmod)
      · exact Fin.ext
          (by simpa [memory_index_pair, memory_to_subtable_index] using hdiv)

/-- The error type returned by verification, standing for
utils::errors::ProofVerifyError. -/
inductive ProofVerifyError where
  | internalError : ProofVerifyError
  | sumcheckVerificationError : ProofVerifyError
deriving DecidableEq

/-- Outcome of running SurgeProof::verify: a clean success, a clean
error result propagated to the caller, or a Rust panic (an aborted
process, NOT an error result). -/
inductive VerifyOutcome where
  | ok : VerifyOutcome
  | err : ProofVerifyError → VerifyOutcome
  | crash : VerifyOutcome
deriving DecidableEq

/-- Control flow of SurgeProof::verify (surge.rs lines 553-610) with the
external collaborators abstracted: `sumcheckResult` is what
`primary_sumcheck.sumcheck_proof.verify(...)` returns (propagated by
`?` on error, giving the final claim and the point r_z on success);
`eqEval r_z` is the verifier-computed eq(r, r_z); `combinedLookups` is
`instruction.combine_lookups(E_poly_openings, C, M)`;
`memoryCheckingResult` is the delegated memory-checking verification.
The final-claim comparison itself is the code's
`assert_eq!(eq_eval * combine_lookups(..), claim_last)`, which on a
mismatch PANICS (modelled as `crash`) instead of returning an error. -/
def surge_verify {F R : Type} [DecidableEq F] [Mul F]
    (sumcheckResult : Except ProofVerifyError (F × R))
    (eqEval : R → F) (combinedLookups : F)
    (memoryCheckingResult : Except ProofVerifyError Unit) : VerifyOutcome :=
  match sumcheckResult with
  | Except.error e => VerifyOutcome.err e
  | Except.ok (claimLast, rz) =>
    if eqEval rz * combinedLookups = claimLast then
      match memoryCheckingResult with
      | Except.ok _ => VerifyOutcome.ok
      | Except.error e => VerifyOutcome.err e
    else VerifyOutcome.crash

/-- C2 (refuted as stated / code bug): on an input where the final
sumcheck claim (here 1) differs from eq(r, r_z)·Combine(openings)
(here 0·0 = 0), verify does NOT surface the mismatch as an error
result: it crashes (the assert_eq! panic), while mismatches in the
delegated sumcheck verification are surfaced as error results. -/
theorem surge_verify_mismatch_crashes :
    surge_verify (F := Int) (R := Unit) (Except.ok (1, ())) (fun _ => 0) 0
      (Except.ok ()) = VerifyOutcome.crash
    ∧ surge_verify (F := Int) (R := Unit)
        (Except.error ProofVerifyError.sumcheckVerificationError) (fun _ => 0) 0
        (Except.ok ())
      = VerifyOutcome.err ProofVerifyError.sumcheckVerificationError := by
  constructor
  · rfl
  · rfl
